import Mathlib

/-!
Verification of libkeepass (KeePass KDB/KDBX importer/exporter) against its
natural-language specification.  The definitions below are shallow embeddings
of the C++ sources under src/: bytes are modelled as `Nat` (with explicit
`% 2 ^ 32` where 32-bit overflow matters), byte buffers as `List Nat`,
fallible code as `Except`, and the black boxes the spec designates (AES-256,
SHA-256) as function parameters.
-/

namespace keepass

/-- Error taxonomy from exception.hh: FileNotFoundError, FormatError,
PasswordError, IoError, InternalError. -/
inductive KpErr where
  | fileNotFound
  | format
  | badPassword
  | io
  | internal
deriving DecidableEq

/-- XOR of two byte buffers, pointwise (`std::bit_xor` over ranges). -/
def zipXor (a b : List Nat) : List Nat := List.zipWith (fun x y => x ^^^ y) a b

/-- Little-endian serialization of a 32-bit word, as written by
`conserve<uint32_t>`; the per-byte `% 256` realizes the `uint32_t` cast. -/
def le32 (n : Nat) : List Nat :=
  [n % 256, n / 256 % 256, n / 2 ^ 16 % 256, n / 2 ^ 24 % 256]

/-- Little-endian deserialization of a 32-bit word (`consume<uint32_t>`). -/
def de32 (l : List Nat) : Nat :=
  l.getD 0 0 + 256 * l.getD 1 0 + 2 ^ 16 * l.getD 2 0 + 2 ^ 24 * l.getD 3 0

/-- The all-zero 32-byte buffer (`kEmptyHash` in stream.cc, `kEmptyKey` in
key.cc). -/
def zeros32 : List Nat := List.replicate 32 0

/-! ## C1: KDBX CompressionFlags header field (kdbx.cc lines 982-989)

From kdbx.cc: `enum class kKdbxCompressionFlags : uint32_t { kNone, kGzip,
kCount }` so `kNone = 0`, `kGzip = 1`, `kCount = 2`, and the handler is

    uint32_t comp_flags = consume<uint32_t>(field);
    if (comp_flags > static_cast<uint32_t>(kKdbxCompressionFlags::kCount))
      throw FormatError("Unknown compression method in KDBX.");
    db->set_compress(comp_flags ==
        static_cast<uint32_t>(kKdbxCompressionFlags::kGzip));
-/

def kKdbxCompressionFlagsGzip : Nat := 1

def kKdbxCompressionFlagsCount : Nat := 2

/-- Handler for outer header field id 3 (CompressionFlags): returns the
`compress` flag stored into the database, or a Format error.  The argument is
the `uint32_t` decoded from the 4-byte payload (hence `< 2 ^ 32`). -/
def kdbxReadCompressionFlags (comp_flags : Nat) : Except KpErr Bool :=
  if kKdbxCompressionFlagsCount < comp_flags then
    .error .format
  else
    .ok (comp_flags = kKdbxCompressionFlagsGzip)

/-! ## C2: KDB version check (kdb.cc lines 500-516)

    switch (header.version & 0xffffff00) {
      case 0x00010000: throw FormatError("KDB version 1 is not supported.");
      case 0x00020000: throw FormatError("KDB version 2 is not supported.");
      case 0x00030000: break;
      default: throw FormatError(...);
    }
-/

/-- The KDB version switch: `ok` means import proceeds past the version
check, `error` the thrown FormatError. -/
def kdbCheckVersion (version : Nat) : Except KpErr Unit :=
  if version &&& 0xffffff00 = 0x00010000 then .error .format
  else if version &&& 0xffffff00 = 0x00020000 then .error .format
  else if version &&& 0xffffff00 = 0x00030000 then .ok ()
  else .error .format

/-! ## C7: composite key resolution (key.cc lines 34-69)

`Key::CompositeKey::Resolve` holds two 32-byte sub-keys; an all-zero sub-key
means "absent".  SHA-256 is the spec-designated black box: the streaming
`SHA256_Update` calls hash the concatenation of the updated buffers, so the
embedding takes `sha : List Nat → List Nat` as a parameter and passes it the
concatenated input. -/

/-- Embedding of `Key::CompositeKey::Resolve`.  `password_key` and
`keyfile_key` are the two 32-byte sub-keys; `kEmptyKey` is `zeros32`. -/
def compositeKeyResolve (sha : List Nat → List Nat)
    (hashSubKeys : Bool) (password_key keyfile_key : List Nat) : List Nat :=
  if hashSubKeys then
    sha ((if password_key ≠ zeros32 then password_key else []) ++
         (if keyfile_key ≠ zeros32 then keyfile_key else []))
  else
    if password_key ≠ zeros32 then
      if keyfile_key ≠ zeros32 then
        sha (password_key ++ keyfile_key)
      else
        password_key
    else
      keyfile_key

/-! ## Theorems for C1, C2, C7 -/

/-- Claim C1: the spec says a CompressionFlags payload value `≥ 2` raises a
Format error, but the code only rejects values `> kCount = 2`: the payload
value 2 (which is `kKdbxCompressionFlags::kCount`, not a defined compression
method) is accepted and silently selects no compression.  This theorem
records the code behavior at 0, 1, the failing input 2, and 3. -/
theorem kdbxCompressionFlags_at_two :
    kdbxReadCompressionFlags 0 = .ok false ∧
    kdbxReadCompressionFlags 1 = .ok true ∧
    kdbxReadCompressionFlags 2 = .ok false ∧
    kdbxReadCompressionFlags 3 = .error .format :=
  ⟨rfl, rfl, rfl, rfl⟩

/-- Claim C2 counterexample: version 0x00031000 has its top 16 bits equal to
0x0003, yet the KDB version check rejects it with a Format error, because
the code masks with 0xffffff00 (top 24 bits), not 0xffff0000. -/
theorem kdbCheckVersion_counterexample :
    0x00031000 >>> 16 = 0x0003 ∧
    kdbCheckVersion 0x00031000 = .error .format :=
  ⟨rfl, rfl⟩

/-- Claim C2 (amended): KDB import proceeds past the version check exactly
when `version & 0xffffff00 == 0x00030000`, i.e. when the top 24 bits of the
version word equal 0x000300; every other version value fails with a Format
error. -/
theorem kdbCheckVersion_iff (v : Nat) :
    (kdbCheckVersion v = .ok () ↔ v &&& 0xffffff00 = 0x00030000) ∧
    (kdbCheckVersion v = .error .format ↔ v &&& 0xffffff00 ≠ 0x00030000) := by
  unfold kdbCheckVersion
  split_ifs with h1 h2 h3 <;> simp_all

/-- Claim C7: composite credential resolution.  Under the always-hash policy
(`kHashSubKeys`, KDBX) the result is SHA-256 of the concatenation of the
present sub-keys, password first, even when only one is present; under the
hash-only-if-composite policy (KDB) the result is SHA-256 of the
concatenation when both sub-keys are present and the sole present sub-key
unchanged otherwise. -/
theorem compositeKeyResolve_policies (sha : List Nat → List Nat)
    (p k : List Nat) :
    (p ≠ zeros32 → k ≠ zeros32 →
      compositeKeyResolve sha true p k = sha (p ++ k) ∧
      compositeKeyResolve sha false p k = sha (p ++ k)) ∧
    (p ≠ zeros32 → k = zeros32 →
      compositeKeyResolve sha true p k = sha p ∧
      compositeKeyResolve sha false p k = p) ∧
    (p = zeros32 → k ≠ zeros32 →
      compositeKeyResolve sha true p k = sha k ∧
      compositeKeyResolve sha false p k = k) := by
  refine ⟨fun hp hk => ?_, fun hp hk => ?_, fun hp hk => ?_⟩ <;>
    simp [compositeKeyResolve, hp, hk]

/-- Claim C7 witness: the always-hash and composite policies evaluated for a
concrete credential with only the password sub-key present (`sha` taken as
the identity function for evaluation). -/
theorem compositeKeyResolve_policies_witness :
    compositeKeyResolve (fun l => l) true (List.replicate 32 1) zeros32 =
      List.replicate 32 1 ∧
    compositeKeyResolve (fun l => l) false (List.replicate 32 1) zeros32 =
      List.replicate 32 1 := by
  have h :=
    (compositeKeyResolve_policies (fun l => l) (List.replicate 32 1)
      zeros32).2.1 (by decide) rfl
  exact ⟨h.1, h.2⟩

/-! ## CBC mode (cipher.cc lines 129-209)

`encrypt_cbc` / `decrypt_cbc` drive an abstract 16-byte block cipher
(AES-256 or Twofish-256; the block primitive is a spec-designated black
box, so it is a function parameter here).  `block_transform` feeds the
source in 16-byte chunks; a shorter chunk can only be the final one. -/

/-- Embedding of `encrypt_cbc`: `prv` is the previous ciphertext block (the
IV initially).  A full 16-byte chunk is XORed with `prv` and encrypted; a
final partial chunk is PKCS#7-padded in place; if the source length is a
multiple of 16 (`pad_len == 0` after the loop) one extra block of value 16
is appended. -/
def cbcEncrypt (E : List Nat → List Nat) (prv s : List Nat) : List Nat :=
  if 16 ≤ s.length then
    let c := E (zipXor (s.take 16) prv)
    c ++ cbcEncrypt E c (s.drop 16)
  else if s.length = 0 then
    E (zipXor (List.replicate 16 16) prv)
  else
    E (zipXor (s ++ List.replicate (16 - s.length) (16 - s.length)) prv)
termination_by s.length
decreasing_by simp; omega

/-- Embedding of `decrypt_cbc`: strict 16-byte chunks (a shorter non-empty
final chunk is an IO error); each block is decrypted and XORed with the
previous ciphertext block; on the last block the PKCS#7 padding byte is
validated (`pad > 16` or a non-matching tail byte is an IO error) and the
last `pad` bytes are removed.  An empty source yields an empty output. -/
def cbcDecrypt (D : List Nat → List Nat) (prv s : List Nat) :
    Except KpErr (List Nat) :=
  if s.length = 0 then .ok []
  else if s.length < 16 then .error .io
  else
    let p := zipXor (D (s.take 16)) prv
    if s.length = 16 then
      let pad := p.getD 15 0
      if 16 < pad then .error .io
      else if (p.drop (16 - pad)).all (fun b => b = pad) then
        .ok (p.take (16 - pad))
      else .error .io
    else
      match cbcDecrypt D (s.take 16) (s.drop 16) with
      | .error e => .error e
      | .ok rest => .ok (p ++ rest)
termination_by s.length
decreasing_by simp; omega

theorem zipXor_length (a b : List Nat) :
    (zipXor a b).length = min a.length b.length := by
  simp [zipXor]

theorem zipXor_cancel (a b : List Nat) (h : a.length = b.length) :
    zipXor (zipXor a b) b = a := by
  induction a generalizing b with
  | nil => simp [zipXor]
  | cons x xs ih =>
    cases b with
    | nil => simp at h
    | cons y ys =>
      simp only [zipXor, List.zipWith_cons_cons] at ih ⊢
      simp only [List.length_cons, Nat.add_right_cancel_iff] at h
      rw [Nat.xor_assoc, Nat.xor_self, Nat.xor_zero, ih ys h]

theorem cbcRoundLast (E D : List Nat → List Nat)
    (hE : ∀ b, b.length = 16 → (E b).length = 16)
    (hD : ∀ b, b.length = 16 → D (E b) = b)
    (s prv : List Nat) (hs : s.length < 16) (hprv : prv.length = 16) :
    cbcDecrypt D prv (cbcEncrypt E prv s) = .ok s ∧
    (cbcEncrypt E prv s).length = 16 := by
  set n := s.length with hn
  set m := 16 - n with hm
  have hblk : cbcEncrypt E prv s = E (zipXor (s ++ List.replicate m m) prv) := by
    rw [cbcEncrypt]
    by_cases h0 : n = 0
    · have hsnil : s = [] := List.length_eq_zero.mp (hn ▸ h0)
      simp [hsnil, ← hn, h0, hm]
    · rw [if_neg (by omega), if_neg (by omega)]
  have hblen : (s ++ List.replicate m m).length = 16 := by
    simp [hm]
    omega
  have hxlen : (zipXor (s ++ List.replicate m m) prv).length = 16 := by
    rw [zipXor_length, hblen, hprv]
    simp
  have helen : (cbcEncrypt E prv s).length = 16 := by
    rw [hblk]
    exact hE _ hxlen
  refine ⟨?_, helen⟩
  rw [cbcDecrypt]
  rw [if_neg (by omega), if_neg (by omega), if_pos helen]
  have htake : (cbcEncrypt E prv s).take 16 = cbcEncrypt E prv s :=
    List.take_of_length_le (le_of_eq helen)
  have hp : zipXor (D ((cbcEncrypt E prv s).take 16)) prv =
      s ++ List.replicate m m := by
    rw [htake, hblk, hD _ hxlen]
    exact zipXor_cancel _ _ (by rw [hblen, hprv])
  rw [hp]
  have hpad : (s ++ List.replicate m m).getD 15 0 = m := by
    have h1 : (s ++ List.replicate m m).getD 15 0 =
        (List.replicate m m).getD (15 - s.length) 0 :=
      List.getD_append_right _ _ _ _ (by omega)
    have h15 : 15 - s.length < m := by omega
    rw [h1, List.getD_eq_getElem _ _ (by simpa using h15)]
    simp
  rw [hpad]
  rw [if_neg (by omega)]
  have hdrop : (s ++ List.replicate m m).drop (16 - m) = List.replicate m m := by
    rw [show 16 - m = n by omega]
    exact List.drop_left' hn.symm
  have htk : (s ++ List.replicate m m).take (16 - m) = s := by
    rw [show 16 - m = n by omega]
    exact List.take_left' hn.symm
  rw [hdrop, htk]
  rw [if_pos (by simp [List.all_eq_true, List.mem_replicate])]

theorem cbcRoundtripAux (E D : List Nat → List Nat)
    (hE : ∀ b, b.length = 16 → (E b).length = 16)
    (hD : ∀ b, b.length = 16 → D (E b) = b) :
    ∀ n s prv, s.length ≤ n → prv.length = 16 →
      cbcDecrypt D prv (cbcEncrypt E prv s) = .ok s ∧
      (cbcEncrypt E prv s).length % 16 = 0 ∧
      s.length < (cbcEncrypt E prv s).length := by
  intro n
  induction n with
  | zero =>
    intro s prv hs hprv
    have h := cbcRoundLast E D hE hD s prv (by omega) hprv
    exact ⟨h.1, by omega, by omega⟩
  | succ n ih =>
    intro s prv hs hprv
    by_cases h16 : 16 ≤ s.length
    · have htlen : (s.take 16).length = 16 := by simp [h16]
      have hxlen : (zipXor (s.take 16) prv).length = 16 := by
        rw [zipXor_length, htlen, hprv]
        simp
      set c := E (zipXor (s.take 16) prv) with hc
      have hclen : c.length = 16 := hE _ hxlen
      have henc : cbcEncrypt E prv s = c ++ cbcEncrypt E c (s.drop 16) := by
        rw [cbcEncrypt, if_pos h16]
      have ihrest := ih (s.drop 16) c (by simp; omega) hclen
      set e := cbcEncrypt E c (s.drop 16) with he
      have hge : 16 ≤ e.length := by
        have hdvd : 16 ∣ e.length := Nat.dvd_of_mod_eq_zero ihrest.2.1
        exact Nat.le_of_dvd (by omega) hdvd
      have hlen : (c ++ e).length = 16 + e.length := by simp [hclen]
      refine ⟨?_, ?_, ?_⟩
      · rw [henc, cbcDecrypt]
        rw [if_neg (by omega), if_neg (by omega), if_neg (by omega)]
        have htkc : (c ++ e).take 16 = c := List.take_left' hclen
        have hdrc : (c ++ e).drop 16 = e := List.drop_left' hclen
        rw [htkc, hdrc, ihrest.1]
        have hp : zipXor (D c) prv = s.take 16 := by
          rw [hc, hD _ hxlen]
          exact zipXor_cancel _ _ (by rw [htlen, hprv])
        rw [hp]
        simp [List.take_append_drop]
      · rw [henc]
        have := ihrest.2.1
        omega
      · rw [henc]
        have h1 := ihrest.2.2
        have h2 : (s.drop 16).length = s.length - 16 := by simp
        omega
    · have h := cbcRoundLast E D hE hD s prv (by omega) hprv
      exact ⟨h.1, by omega, by omega⟩

/-- Claim C5: CBC round-trip with mandatory padding.  For every source byte
sequence and every block cipher pair (encrypt `E`, decrypt `D`, the
AES/Twofish black box) with a 16-byte IV, decrypting the encryption yields
the source, the ciphertext length is a multiple of 16, and it strictly
exceeds the source length. -/
theorem cbc_roundtrip (E D : List Nat → List Nat)
    (hE : ∀ b, b.length = 16 → (E b).length = 16)
    (hD : ∀ b, b.length = 16 → D (E b) = b)
    (iv s : List Nat) (hiv : iv.length = 16) :
    cbcDecrypt D iv (cbcEncrypt E iv s) = .ok s ∧
    (cbcEncrypt E iv s).length % 16 = 0 ∧
    s.length < (cbcEncrypt E iv s).length :=
  cbcRoundtripAux E D hE hD s.length s iv le_rfl hiv

/-- Claim C5 witness: the round-trip evaluated with the identity block
cipher, a zero IV and the three-byte source [1, 2, 3]. -/
theorem cbc_roundtrip_witness :
    cbcDecrypt (fun b => b) (List.replicate 16 0)
      (cbcEncrypt (fun b => b) (List.replicate 16 0) [1, 2, 3]) =
      .ok [1, 2, 3] := by
  have h := cbc_roundtrip (fun b => b) (fun b => b)
    (fun b hb => hb) (fun b hb => rfl) (List.replicate 16 0) [1, 2, 3]
    (by simp)
  exact h.1

/-! ## C3: key transformation (key.cc lines 121-136, cipher.cc lines 99-112)

`Key::Transform` builds an AES-256 ECB cipher keyed on the transform seed
(the AES block primitive is the spec black box `E`) and runs

    std::array<uint8_t, 32> transformed_key = key_.Resolve(resolution);
    for (uint32_t i = 0; i < rounds; ++i)
      transformed_key = encrypt_ecb(transformed_key, cipher);

followed by SHA-256.  `rounds` is `uint64_t` but the loop counter `i` is
`uint32_t`: the comparison promotes `i` to 64 bits and `++i` wraps at
`2 ^ 32`, which the embedding models by `(i + 1) % 2 ^ 32`.  The loop is a
partial function, modelled with explicit fuel. -/

/-- Embedding of the 32-byte `encrypt_ecb` overload: the buffer is encrypted
as two independent 16-byte blocks. -/
def encryptEcb32 (E : List Nat → List Nat) (src : List Nat) : List Nat :=
  E (src.take 16) ++ E (src.drop 16)

/-- The `for (uint32_t i = 0; i < rounds; ++i)` loop of `Key::Transform`,
with fuel: `none` means the fuel ran out with the loop still running. -/
def transformLoop (E : List Nat → List Nat) (rounds : Nat) :
    Nat → Nat → List Nat → Option (List Nat)
  | 0, _, _ => none
  | fuel + 1, i, key =>
    if i < rounds then
      transformLoop E rounds fuel ((i + 1) % 2 ^ 32) (encryptEcb32 E key)
    else
      some key

/-- `Key::Transform` after sub-key resolution: the loop followed by the
SHA-256 black box. -/
def keyTransform (E sha : List Nat → List Nat) (rounds : Nat)
    (key0 : List Nat) (fuel : Nat) : Option (List Nat) :=
  (transformLoop E rounds fuel 0 key0).map sha

theorem transformLoop_diverges (E : List Nat → List Nat) (rounds : Nat)
    (h : 2 ^ 32 ≤ rounds) :
    ∀ fuel i key, i < 2 ^ 32 → transformLoop E rounds fuel i key = none := by
  intro fuel
  induction fuel with
  | zero => intro i key hi; rfl
  | succ fuel ih =>
    intro i key hi
    rw [transformLoop, if_pos (by omega)]
    exact ih _ _ (Nat.mod_lt _ (by norm_num))

/-- Claim C3 (code bug evidence): for the 64-bit round count `R = 2 ^ 32`
the transform loop never terminates, regardless of fuel, cipher, hash or
key, because the `uint32_t` loop counter wraps below `rounds` forever; the
claim instead says Transform terminates for every 64-bit round count. -/
theorem keyTransform_diverges_at_2_32 :
    ∀ (E sha : List Nat → List Nat) (key0 : List Nat) (fuel : Nat),
      keyTransform E sha (2 ^ 32) key0 fuel = none := by
  intro E sha key0 fuel
  unfold keyTransform
  rw [transformLoop_diverges E (2 ^ 32) le_rfl fuel 0 key0 (by norm_num)]
  rfl

theorem transformLoop_computes (E : List Nat → List Nat) (rounds : Nat)
    (hr : rounds < 2 ^ 32) :
    ∀ k j key, j + k = rounds →
      transformLoop E rounds (k + 1) j key =
        some ((encryptEcb32 E)^[k] key) := by
  intro k
  induction k with
  | zero =>
    intro j key hj
    rw [transformLoop, if_neg (by omega)]
    rfl
  | succ k ih =>
    intro j key hj
    rw [transformLoop, if_pos (by omega)]
    rw [show (j + 1) % 2 ^ 32 = j + 1 from Nat.mod_eq_of_lt (by omega)]
    rw [ih (j + 1) (encryptEcb32 E key) (by omega)]
    rw [Function.iterate_succ_apply]

/-- For round counts below `2 ^ 32` the loop does terminate and Transform
returns SHA-256 of the `rounds`-fold ECB encryption, as the spec says. -/
theorem keyTransform_below_2_32 (E sha : List Nat → List Nat) (rounds : Nat)
    (hr : rounds < 2 ^ 32) (key0 : List Nat) :
    keyTransform E sha rounds key0 (rounds + 1) =
      some (sha ((encryptEcb32 E)^[rounds] key0)) := by
  unfold keyTransform
  rw [transformLoop_computes E rounds hr rounds 0 key0 (by omega)]
  rfl

/-! ## C8: BadPassword conditions in the two importers

KDB (kdb.cc lines 549-577): after key derivation, `decrypt_cbc` runs inside
a try/catch whose handler throws `PasswordError`; then SHA-256 of the
plaintext is compared against the header content hash, mismatch throwing
`PasswordError`.  KDBX (kdbx.cc lines 1068-1081): same try/catch around
`decrypt_cbc`, then the first 32 plaintext bytes are compared against the
header ContentStreamStartBytes (`!content.good()`, i.e. fewer than 32
plaintext bytes, also throws `PasswordError`).  Everything downstream
(group/entry decoding, tree building, XML parsing, hashed-block and gzip
streams, header-hash validation) throws only Format and IO errors, which
`ParseErr` captures; `PasswordError` appears nowhere else in either
importer. -/

inductive ParseErr where
  | format
  | io
deriving DecidableEq

def ParseErr.toKpErr : ParseErr → KpErr
  | .format => .format
  | .io => .io

/-- KDB import after key derivation: CBC-decrypt the file remainder, hash
the plaintext, compare with the header content hash, then decode
(`parse` abstracts group/entry decoding and tree building). -/
def kdbImportContent {α : Type} (sha D : List Nat → List Nat)
    (iv content_hash : List Nat) (parse : List Nat → Except ParseErr α)
    (ciphertext : List Nat) : Except KpErr α :=
  match cbcDecrypt D iv ciphertext with
  | .error _ => .error .badPassword
  | .ok content =>
    if sha content ≠ content_hash then .error .badPassword
    else
      match parse content with
      | .error e => .error e.toKpErr
      | .ok db => .ok db

/-- KDBX import after key derivation: CBC-decrypt, compare the first 32
plaintext bytes with ContentStreamStartBytes, then decode the rest
(`parse` abstracts the hashed-block/gzip/XML pipeline). -/
def kdbxImportContent {α : Type} (D : List Nat → List Nat)
    (iv start_bytes : List Nat) (parse : List Nat → Except ParseErr α)
    (ciphertext : List Nat) : Except KpErr α :=
  match cbcDecrypt D iv ciphertext with
  | .error _ => .error .badPassword
  | .ok content =>
    if content.length < 32 ∨ content.take 32 ≠ start_bytes then
      .error .badPassword
    else
      match parse (content.drop 32) with
      | .error e => .error e.toKpErr
      | .ok db => .ok db

theorem ParseErr.toKpErr_ne_badPassword (e : ParseErr) :
    e.toKpErr ≠ KpErr.badPassword := by
  cases e <;> simp [ParseErr.toKpErr]

/-- Claim C8: each importer raises BadPassword exactly when payload
authentication fails after key derivation: for KDB, when CBC decryption
fails or SHA-256 of the plaintext differs from the header content hash; for
KDBX, when CBC decryption fails or the first 32 plaintext bytes differ from
the header ContentStreamStartBytes (which has 32 bytes by the header size
check at kdbx.cc line 1013). -/
theorem import_badPassword_iff {α : Type} (sha D : List Nat → List Nat)
    (iv content_hash start_bytes : List Nat)
    (parseK parseX : List Nat → Except ParseErr α) (ct : List Nat)
    (hsb : start_bytes.length = 32) :
    (kdbImportContent sha D iv content_hash parseK ct =
        .error .badPassword ↔
      (∃ e, cbcDecrypt D iv ct = .error e) ∨
      (∃ content, cbcDecrypt D iv ct = .ok content ∧
        sha content ≠ content_hash)) ∧
    (kdbxImportContent D iv start_bytes parseX ct = .error .badPassword ↔
      (∃ e, cbcDecrypt D iv ct = .error e) ∨
      (∃ content, cbcDecrypt D iv ct = .ok content ∧
        content.take 32 ≠ start_bytes)) := by
  constructor
  · unfold kdbImportContent
    split
    next e heq => simp [heq]
    next content heq =>
      by_cases hh : sha content = content_hash
      · rw [if_neg (by simp [hh])]
        split
        next e hp => simp [heq, hp, ParseErr.toKpErr_ne_badPassword e, hh]
        next db hp => simp [heq, hp, hh]
      · simp [heq, hh]
  · unfold kdbxImportContent
    split
    next e heq => simp [heq]
    next content heq =>
      by_cases hc : content.length < 32 ∨ content.take 32 ≠ start_bytes
      · rw [if_pos hc]
        simp only [heq]
        constructor
        · intro _
          refine Or.inr ⟨content, rfl, ?_⟩
          rcases hc with hlt | hne
          · intro htk
            have h32 : (content.take 32).length = 32 := by rw [htk, hsb]
            simp at h32
            omega
          · exact hne
        · intro _
          trivial
      · push_neg at hc
        rw [if_neg (not_or.mpr ⟨Nat.not_lt.mpr hc.1, by simp [hc.2]⟩)]
        split
        next e hp => simp [heq, hp, ParseErr.toKpErr_ne_badPassword e, hc.2]
        next db hp => simp [heq, hp, hc.2]

/-- Claim C8 witness: the KDB and KDBX import tails evaluated at a one-byte
ciphertext (whose CBC decryption fails), with identity cipher and trivial
parser. -/
theorem import_badPassword_iff_witness :
    kdbImportContent (fun _ => []) (fun b => b) (List.replicate 16 0) []
        (fun _ => Except.ok 0) [1] = .error .badPassword ∧
    kdbxImportContent (fun b => b) (List.replicate 16 0)
        (List.replicate 32 0) (fun _ => Except.ok 0) [1] =
      .error .badPassword := by
  have hd : cbcDecrypt (fun b : List Nat => b) (List.replicate 16 0) [1] =
      .error .io := by
    rw [cbcDecrypt]
    simp
  have h := import_badPassword_iff (fun _ => []) (fun b => b)
    (List.replicate 16 0) [] (List.replicate 32 0)
    (fun _ => Except.ok (0 : Nat)) (fun _ => Except.ok (0 : Nat)) [1]
    (by simp)
  exact ⟨h.1.mpr (Or.inl ⟨.io, hd⟩), h.2.mpr (Or.inl ⟨.io, hd⟩)⟩

/-! ## C9: Salsa20 and the random-stream obfuscator
(cipher.cc lines 455-543, random.cc lines 23-63)

`Salsa20Cipher` holds 16 32-bit state words; `Process` emits one 64-byte
keystream block (`WordToByte`) and increments the counter words 8 and 9.
`RandomObfuscator` consumes the keystream one byte at a time, refilling its
64-byte buffer whenever it is exhausted, and XORs it with the data. -/

/-- 32-bit left rotation (`RotateLeft` on `uint32_t`). -/
def rotl32 (x n : Nat) : Nat := ((x <<< n) ||| (x >>> (32 - n))) % 2 ^ 32

set_option maxHeartbeats 1000000 in
/-- One iteration of the `for (i < 10)` loop in `Salsa20Cipher::WordToByte`
(a Salsa20 double round); sums wrap at 32 bits before each rotation. -/
def salsaDoubleRound (s : List Nat) : List Nat :=
  match s with
  | [x0, x1, x2, x3, x4, x5, x6, x7, x8, x9, x10, x11, x12, x13, x14, x15] =>
    let x4 := x4 ^^^ rotl32 ((x0 + x12) % 2 ^ 32) 7
    let x8 := x8 ^^^ rotl32 ((x4 + x0) % 2 ^ 32) 9
    let x12 := x12 ^^^ rotl32 ((x8 + x4) % 2 ^ 32) 13
    let x0 := x0 ^^^ rotl32 ((x12 + x8) % 2 ^ 32) 18
    let x9 := x9 ^^^ rotl32 ((x5 + x1) % 2 ^ 32) 7
    let x13 := x13 ^^^ rotl32 ((x9 + x5) % 2 ^ 32) 9
    let x1 := x1 ^^^ rotl32 ((x13 + x9) % 2 ^ 32) 13
    let x5 := x5 ^^^ rotl32 ((x1 + x13) % 2 ^ 32) 18
    let x14 := x14 ^^^ rotl32 ((x10 + x6) % 2 ^ 32) 7
    let x2 := x2 ^^^ rotl32 ((x14 + x10) % 2 ^ 32) 9
    let x6 := x6 ^^^ rotl32 ((x2 + x14) % 2 ^ 32) 13
    let x10 := x10 ^^^ rotl32 ((x6 + x2) % 2 ^ 32) 18
    let x3 := x3 ^^^ rotl32 ((x15 + x11) % 2 ^ 32) 7
    let x7 := x7 ^^^ rotl32 ((x3 + x15) % 2 ^ 32) 9
    let x11 := x11 ^^^ rotl32 ((x7 + x3) % 2 ^ 32) 13
    let x15 := x15 ^^^ rotl32 ((x11 + x7) % 2 ^ 32) 18
    let x1 := x1 ^^^ rotl32 ((x0 + x3) % 2 ^ 32) 7
    let x2 := x2 ^^^ rotl32 ((x1 + x0) % 2 ^ 32) 9
    let x3 := x3 ^^^ rotl32 ((x2 + x1) % 2 ^ 32) 13
    let x0 := x0 ^^^ rotl32 ((x3 + x2) % 2 ^ 32) 18
    let x6 := x6 ^^^ rotl32 ((x5 + x4) % 2 ^ 32) 7
    let x7 := x7 ^^^ rotl32 ((x6 + x5) % 2 ^ 32) 9
    let x4 := x4 ^^^ rotl32 ((x7 + x6) % 2 ^ 32) 13
    let x5 := x5 ^^^ rotl32 ((x4 + x7) % 2 ^ 32) 18
    let x11 := x11 ^^^ rotl32 ((x10 + x9) % 2 ^ 32) 7
    let x8 := x8 ^^^ rotl32 ((x11 + x10) % 2 ^ 32) 9
    let x9 := x9 ^^^ rotl32 ((x8 + x11) % 2 ^ 32) 13
    let x10 := x10 ^^^ rotl32 ((x9 + x8) % 2 ^ 32) 18
    let x12 := x12 ^^^ rotl32 ((x15 + x14) % 2 ^ 32) 7
    let x13 := x13 ^^^ rotl32 ((x12 + x15) % 2 ^ 32) 9
    let x14 := x14 ^^^ rotl32 ((x13 + x12) % 2 ^ 32) 13
    let x15 := x15 ^^^ rotl32 ((x14 + x13) % 2 ^ 32) 18
    [x0, x1, x2, x3, x4, x5, x6, x7, x8, x9, x10, x11, x12, x13, x14, x15]
  | _ => s

/-- `Salsa20Cipher::WordToByte`: 10 double rounds, add the original state
back word-wise (32-bit wrap), serialize little-endian. -/
def salsaWordToByte (input : List Nat) : List Nat :=
  let x := salsaDoubleRound^[10] input
  (List.zipWith (fun a b => (a + b) % 2 ^ 32) x input).map le32 |>.flatten

/-- The four words of the `"expand 32-byte k"` constant, little-endian
(`expa`, `nd 3`, `2-by`, `te k`). -/
def kSigma0 : Nat := de32 [0x65, 0x78, 0x70, 0x61]

def kSigma1 : Nat := de32 [0x6e, 0x64, 0x20, 0x33]

def kSigma2 : Nat := de32 [0x32, 0x2d, 0x62, 0x79]

def kSigma3 : Nat := de32 [0x74, 0x65, 0x20, 0x6b]

/-- `Salsa20Cipher` constructor: state-word layout of key, constants,
nonce and counter. -/
def salsaInit (key iv : List Nat) : List Nat :=
  [kSigma0,
   de32 (key.take 4), de32 ((key.drop 4).take 4),
   de32 ((key.drop 8).take 4), de32 ((key.drop 12).take 4),
   kSigma1,
   de32 (iv.take 4), de32 ((iv.drop 4).take 4),
   0, 0,
   kSigma2,
   de32 ((key.drop 16).take 4), de32 ((key.drop 20).take 4),
   de32 ((key.drop 24).take 4), de32 ((key.drop 28).take 4),
   kSigma3]

/-- `Salsa20Cipher::Process` on the zero block: emit the keystream block
and increment the counter (word 8, with carry into word 9). -/
def salsaStep (s : List Nat) : List Nat × List Nat :=
  let out := salsaWordToByte s
  let c := (s.getD 8 0 + 1) % 2 ^ 32
  let s2 := (s.set 8 c)
  (out, if c = 0 then s2.set 9 ((s2.getD 9 0 + 1) % 2 ^ 32) else s2)

/-- The fixed 8-byte Salsa20 IV used for the KDBX inner random stream
(kdbx.cc lines 58-60). -/
def kKdbxInnerRandomStreamInitVec : List Nat :=
  [0xe8, 0x30, 0x09, 0x4b, 0x97, 0x20, 0x5d, 0x2a]

/-- State of a `RandomObfuscator`: the Salsa20 state words, the current
64-byte keystream buffer and the read position within it. -/
structure ObfState where
  cipher : List Nat
  buffer : List Nat
  pos : Nat
deriving DecidableEq

/-- `RandomObfuscator::FillBuffer`, applied lazily: refill when the read
position has reached the buffer size (64). -/
def obfFill (st : ObfState) : ObfState :=
  if st.pos = 64 then
    { cipher := (salsaStep st.cipher).2,
      buffer := (salsaStep st.cipher).1,
      pos := 0 }
  else st

/-- `RandomObfuscator::Process`: XOR the data against consecutive keystream
bytes, refilling the buffer whenever it is exhausted. -/
def obfProcessBytes : ObfState → List Nat → List Nat × ObfState
  | st, [] => ([], st)
  | st, d :: ds =>
    let st1 := obfFill st
    let b := d ^^^ st1.buffer.getD st1.pos 0
    let r := obfProcessBytes { st1 with pos := st1.pos + 1 } ds
    (b :: r.1, r.2)

/-- A fresh `RandomObfuscator` built on `key` and the fixed IV.  random.hh
is not among the provided sources; the initial read position equals the
buffer size, which is forced by the assertion
`assert(buffer_pos_ == buffer_.size())` in `RandomObfuscator::FillBuffer`
(random.cc line 31): the buffer must be refilled before the first byte is
consumed. -/
def obfInit (key : List Nat) : ObfState :=
  { cipher := salsaInit key kKdbxInnerRandomStreamInitVec,
    buffer := List.replicate 64 0,
    pos := 64 }

/-- A sequence of `Process` calls on one obfuscator instance, in order. -/
def obfRun : ObfState → List (List Nat) → List (List Nat) × ObfState
  | st, [] => ([], st)
  | st, d :: ds =>
    let r := obfProcessBytes st d
    let rs := obfRun r.2 ds
    (r.1 :: rs.1, rs.2)

theorem obfProcessBytes_length (st : ObfState) (d : List Nat) :
    (obfProcessBytes st d).1.length = d.length := by
  induction d generalizing st with
  | nil => rfl
  | cons x xs ih => simp [obfProcessBytes, ih]

theorem obfProcessBytes_state_eq (d1 : List Nat) :
    ∀ d2 st, d1.length = d2.length →
      (obfProcessBytes st d1).2 = (obfProcessBytes st d2).2 := by
  induction d1 with
  | nil =>
    intro d2 st h
    have : d2 = [] := List.length_eq_zero.mp h.symm
    simp [this]
  | cons x xs ih =>
    intro d2 st h
    cases d2 with
    | nil => simp at h
    | cons y ys =>
      simp only [List.length_cons, Nat.add_right_cancel_iff] at h
      simp only [obfProcessBytes]
      exact ih ys _ h

theorem obfProcessBytes_invol (d : List Nat) :
    ∀ st, (obfProcessBytes st ((obfProcessBytes st d).1)).1 = d := by
  induction d with
  | nil => intro st; rfl
  | cons x xs ih =>
    intro st
    simp only [obfProcessBytes, List.cons.injEq]
    refine ⟨?_, ?_⟩
    · rw [Nat.xor_assoc, Nat.xor_self, Nat.xor_zero]
    · exact ih _

theorem obfRun_invol (inputs : List (List Nat)) :
    ∀ st, (obfRun st ((obfRun st inputs).1)).1 = inputs := by
  induction inputs with
  | nil => intro st; rfl
  | cons d ds ih =>
    intro st
    simp only [obfRun, List.cons.injEq]
    refine ⟨?_, ?_⟩
    · exact obfProcessBytes_invol d st
    · rw [obfProcessBytes_state_eq ((obfProcessBytes st d).1) d st
        (obfProcessBytes_length st d)]
      exact ih _

/-- Claim C9: obfuscator instances are deterministic in (key, call
sequence) — in this functional embedding two same-keyed instances are the
same `obfInit key` state, so identical call sequences give definitionally
identical outputs — and processing the outputs of one instance through a
fresh instance built on the same key and the fixed IV, in the same order,
restores the original inputs (XOR is self-inverse and the keystream
positions realign). -/
theorem obfuscator_roundtrip (key : List Nat) (inputs : List (List Nat)) :
    (obfRun (obfInit key) ((obfRun (obfInit key) inputs).1)).1 = inputs :=
  obfRun_invol inputs (obfInit key)

/-! ## Data model (entry.hh/cc, group.hh/cc, binary.hh, security.hh)

`protect<T>` wraps a value with a protected flag (equality compares both).
`Binary::operator==` compares only the protected data.  Weak back
references (`std::weak_ptr`) compare by pointer identity of the current
target, modelled as `Option Nat` (a token naming the target object, `none`
when expired/empty).  `Entry` owns a list of history entries and `Group`
owns child groups and entries; since Lean structures cannot be recursive,
the scalar fields live in `EntryData`/`GroupData` and the recursive owned
lists in a single-constructor inductive. -/

structure ProtectedString where
  value : String
  prot : Bool
deriving DecidableEq

structure Binary where
  data : ProtectedString
  compress : Bool
deriving DecidableEq

/-- `Binary::operator==` compares only `data_`. -/
def binaryEq (a b : Binary) : Bool := a.data = b.data

structure Attachment where
  name : String
  binary : Binary
deriving DecidableEq

/-- `Entry::Attachment::operator==`: name plus the dereferenced shared
binary, by value. -/
def attachmentEq (a b : Attachment) : Bool :=
  a.name = b.name && binaryEq a.binary b.binary

structure Association where
  window : String
  sequence : String
deriving DecidableEq

/-- `Entry::AutoType` with its value equality (`std::vector` equality on
associations compares lengths and elements). -/
structure AutoType where
  enabled : Bool
  obfuscation : Nat
  sequence : String
  associations : List Association
deriving DecidableEq

structure EntryField where
  key : String
  value : ProtectedString
deriving DecidableEq

/-- Scalar fields of `Entry` (entry.hh lines 154-177, minus the owned
history list). -/
structure EntryData where
  uuid : List Nat
  icon : Nat
  custom_icon : Option Nat
  title : ProtectedString
  url : ProtectedString
  override_url : String
  username : ProtectedString
  password : ProtectedString
  notes : ProtectedString
  tags : String
  creation_time : Int
  modification_time : Int
  access_time : Int
  expiry_time : Int
  move_time : Int
  expires : Bool
  usage_count : Nat
  bg_color : String
  fg_color : String
  auto_type : AutoType
  attachments : List Attachment
  custom_fields : List EntryField
deriving DecidableEq

inductive Entry where
  | mk (data : EntryData) (history : List Entry)

def Entry.dataOf : Entry → EntryData
  | .mk d _ => d

def Entry.historyOf : Entry → List Entry
  | .mk _ h => h

/-- util.hh `indirect_equal`: `std::equal(v0.begin(), v0.end(), v1.begin())`
dereferencing elements — it walks only the left vector's range and never
compares lengths.  When the right vector is shorter the C++ reads past its
end (undefined); that branch is modelled as `false` and no theorem below
depends on it. -/
def indirectEqualBy (eq : α → α → Bool) : List α → List α → Bool
  | [], _ => true
  | _ :: _, [] => false
  | x :: xs, y :: ys => eq x y && indirectEqualBy eq xs ys

mutual

/-- `Entry::operator==` (entry.cc lines 113-144): the custom-icon presence
check, the scalar fields, then `indirect_equal` over attachments and
history and vector equality over custom fields. -/
def entryEq : Entry → Entry → Bool
  | .mk d1 h1, .mk d2 h2 =>
    (d1.custom_icon.isSome = d2.custom_icon.isSome : Bool) &&
    (d1.custom_icon.isNone || (d1.custom_icon = d2.custom_icon : Bool)) &&
    (d1.uuid = d2.uuid : Bool) &&
    (d1.icon = d2.icon : Bool) &&
    (d1.title = d2.title : Bool) &&
    (d1.url = d2.url : Bool) &&
    (d1.override_url = d2.override_url : Bool) &&
    (d1.username = d2.username : Bool) &&
    (d1.password = d2.password : Bool) &&
    (d1.notes = d2.notes : Bool) &&
    (d1.tags = d2.tags : Bool) &&
    (d1.creation_time = d2.creation_time : Bool) &&
    (d1.modification_time = d2.modification_time : Bool) &&
    (d1.access_time = d2.access_time : Bool) &&
    (d1.expiry_time = d2.expiry_time : Bool) &&
    (d1.move_time = d2.move_time : Bool) &&
    (d1.expires = d2.expires : Bool) &&
    (d1.usage_count = d2.usage_count : Bool) &&
    (d1.bg_color = d2.bg_color : Bool) &&
    (d1.fg_color = d2.fg_color : Bool) &&
    (d1.auto_type = d2.auto_type : Bool) &&
    indirectEqualBy attachmentEq d1.attachments d2.attachments &&
    entryListPrefEq h1 h2 &&
    (d1.custom_fields = d2.custom_fields : Bool)

/-- `indirect_equal` specialized to history entries (the element
comparison dereferences and recurses into `Entry::operator==`). -/
def entryListPrefEq : List Entry → List Entry → Bool
  | [], _ => true
  | _ :: _, [] => false
  | x :: xs, y :: ys => entryEq x y && entryListPrefEq xs ys

end

/-- Scalar fields of `Group` (group.hh, minus the owned lists). -/
structure GroupData where
  uuid : List Nat
  icon : Nat
  custom_icon : Option Nat
  name : String
  notes : String
  creation_time : Int
  modification_time : Int
  access_time : Int
  expiry_time : Int
  move_time : Int
  flags : Nat
  expires : Bool
  expanded : Bool
  usage_count : Nat
  default_autotype_sequence : String
  autotype : Bool
  search : Bool
  last_visible_entry : Option Nat
deriving DecidableEq

inductive Group where
  | mk (data : GroupData) (groups : List Group) (entries : List Entry)

def Group.dataOf : Group → GroupData
  | .mk d _ _ => d

def Group.groupsOf : Group → List Group
  | .mk _ gs _ => gs

def Group.entriesOf : Group → List Entry
  | .mk _ _ es => es

mutual

/-- `Group::operator==` (group.cc lines 110-131): scalar fields, weak
references by pointer identity, then `indirect_equal` over child groups and
entries. -/
def groupEq : Group → Group → Bool
  | .mk d1 gs1 es1, .mk d2 gs2 es2 =>
    (d1.uuid = d2.uuid : Bool) &&
    (d1.icon = d2.icon : Bool) &&
    (d1.custom_icon = d2.custom_icon : Bool) &&
    (d1.name = d2.name : Bool) &&
    (d1.notes = d2.notes : Bool) &&
    (d1.creation_time = d2.creation_time : Bool) &&
    (d1.modification_time = d2.modification_time : Bool) &&
    (d1.access_time = d2.access_time : Bool) &&
    (d1.expiry_time = d2.expiry_time : Bool) &&
    (d1.move_time = d2.move_time : Bool) &&
    (d1.flags = d2.flags : Bool) &&
    (d1.expires = d2.expires : Bool) &&
    (d1.expanded = d2.expanded : Bool) &&
    (d1.usage_count = d2.usage_count : Bool) &&
    (d1.default_autotype_sequence = d2.default_autotype_sequence : Bool) &&
    (d1.autotype = d2.autotype : Bool) &&
    (d1.search = d2.search : Bool) &&
    (d1.last_visible_entry = d2.last_visible_entry : Bool) &&
    groupListPrefEq gs1 gs2 &&
    entryListPrefEq es1 es2

/-- `indirect_equal` specialized to child groups. -/
def groupListPrefEq : List Group → List Group → Bool
  | [], _ => true
  | _ :: _, [] => false
  | x :: xs, y :: ys => groupEq x y && groupListPrefEq xs ys

end

/-- `Entry::IsMetaEntry` (entry.cc lines 52-63): the attachment scan sets
`has_binstream_attachment` when any attachment is named "bin-stream". -/
def entryIsMetaEntry (e : Entry) : Bool :=
  let has_binstream_attachment :=
    e.dataOf.attachments.any fun a => a.name = "bin-stream"
  (e.dataOf.title.value = "Meta-Info" : Bool) &&
  (e.dataOf.url.value = "$" : Bool) &&
  (e.dataOf.username.value = "SYSTEM" : Bool) &&
  !(e.dataOf.notes.value = "") &&
  has_binstream_attachment

/-- `Group::HasNonMetaEntries` (group.cc lines 47-52). -/
def groupHasNonMetaEntries (g : Group) : Bool :=
  g.entriesOf.any fun e => !entryIsMetaEntry e

/-! ## JSON serialization (entry.cc lines 65-111, group.cc lines 54-108)

`time_to_str` (util.cc) formats through `std::localtime`, an environment
dependency, so it is a function parameter `tts` here.  `operator<<` on a
C++ `bool` prints `1`. -/

/-- `Entry::Attachment::ToJson`. -/
def attachmentToJson (a : Attachment) : String :=
  "\x7b" ++
  (if a.name ≠ "" then "\"name\":\"" ++ a.name ++ "\"" else "") ++
  (if ¬a.binary.data.value = "" then
    (if a.name = "" then "" else ",") ++ "\"data\":\"" ++
      a.binary.data.value ++ "\""
  else "") ++
  "\x7d"

/-- `Entry::ToJson`. -/
def entryToJson (tts : Int → String) (e : Entry) : String :=
  "\x7b\"icon\":" ++ toString e.dataOf.icon ++
  (if e.dataOf.title.value ≠ "" then
    ",\"title\":\"" ++ e.dataOf.title.value ++ "\"" else "") ++
  (if e.dataOf.url.value ≠ "" then
    ",\"url\":\"" ++ e.dataOf.url.value ++ "\"" else "") ++
  (if e.dataOf.username.value ≠ "" then
    ",\"username\":\"" ++ e.dataOf.username.value ++ "\"" else "") ++
  (if e.dataOf.password.value ≠ "" then
    ",\"password\":\"" ++ e.dataOf.password.value ++ "\"" else "") ++
  (if e.dataOf.notes.value ≠ "" then
    ",\"notes\":\"" ++ e.dataOf.notes.value ++ "\"" else "") ++
  (if e.dataOf.creation_time ≠ 0 then
    ",\"creation_time\":\"" ++ tts e.dataOf.creation_time ++ "\"" else "") ++
  (if e.dataOf.modification_time ≠ 0 then
    ",\"modification_time\":\"" ++ tts e.dataOf.modification_time ++ "\""
  else "") ++
  (if e.dataOf.access_time ≠ 0 then
    ",\"access_time\":\"" ++ tts e.dataOf.access_time ++ "\"" else "") ++
  (if e.dataOf.expiry_time ≠ 0 then
    ",\"expiry_time\":\"" ++ tts e.dataOf.expiry_time ++ "\"" else "") ++
  String.join (e.dataOf.attachments.map fun a =>
    ",\"attachment\":" ++ attachmentToJson a) ++
  "\x7d"

/-- The entries loop of `Group::ToJson` (group.cc lines 93-101): `sep`
starts empty and becomes "," after the first serialized entry; meta
entries are skipped by `continue` without touching `sep`. -/
def groupEntriesLoop (tts : Int → String) : List Entry → String → String
  | [], _ => ""
  | e :: rest, sep =>
    if entryIsMetaEntry e then groupEntriesLoop tts rest sep
    else sep ++ entryToJson tts e ++ groupEntriesLoop tts rest ","

mutual

/-- `Group::ToJson`. -/
def groupToJson (tts : Int → String) : Group → String
  | .mk d gs es =>
    "\x7b\"icon\":" ++ toString d.icon ++
    (if d.custom_icon.isSome then ",\"custom_icon\":\"1\"" else "") ++
    (if d.name ≠ "" then ",\"name\":\"" ++ d.name ++ "\"" else "") ++
    (if d.notes ≠ "" then ",\"notes\":\"" ++ d.notes ++ "\"" else "") ++
    (if d.creation_time ≠ 0 then
      ",\"creation_time\":\"" ++ tts d.creation_time ++ "\"" else "") ++
    (if d.modification_time ≠ 0 then
      ",\"modification_time\":\"" ++ tts d.modification_time ++ "\""
    else "") ++
    (if d.access_time ≠ 0 then
      ",\"access_time\":\"" ++ tts d.access_time ++ "\"" else "") ++
    (if d.expiry_time ≠ 0 then
      ",\"expiry_time\":\"" ++ tts d.expiry_time ++ "\"" else "") ++
    (if d.move_time ≠ 0 then
      ",\"move_time\":\"" ++ tts d.move_time ++ "\"" else "") ++
    (if d.flags ≠ 0 then ",\"flags\":" ++ toString d.flags else "") ++
    (if gs.isEmpty then ""
    else ",\"groups\":[" ++ groupsLoop tts gs "" ++ "]") ++
    (if groupHasNonMetaEntries (.mk d gs es) then
      ",\"entries\":[" ++ groupEntriesLoop tts es "" ++ "]"
    else "") ++
    "\x7d"

/-- The child-group loop of `Group::ToJson` (group.cc lines 79-89),
with the same `sep` pattern. -/
def groupsLoop (tts : Int → String) : List Group → String → String
  | [], _ => ""
  | g :: rest, sep => sep ++ groupToJson tts g ++ groupsLoop tts rest ","

end

/-- The entries serialization the spec describes: the non-meta entries in
order, comma separated.  Stated from the spec to compare against the loop
`Group::ToJson` actually runs. -/
def entriesJsonSpec (tts : Int → String) : List Entry → String
  | [] => ""
  | [e] => entryToJson tts e
  | e :: rest => entryToJson tts e ++ ("," ++ entriesJsonSpec tts rest)

theorem strAppendEmpty (s : String) : s ++ "" = s := by
  apply String.ext
  simp

theorem strAppendAssoc (a b c : String) : a ++ b ++ c = a ++ (b ++ c) := by
  apply String.ext
  simp

theorem isEmptyEqNil {α : Type} (l : List α) : l.isEmpty = true ↔ l = [] := by
  cases l <;> simp

theorem groupEntriesLoop_spec (tts : Int → String) :
    ∀ (es : List Entry) (sep : String),
      groupEntriesLoop tts es sep =
        if (es.filter fun e => !entryIsMetaEntry e).isEmpty then ""
        else sep ++ entriesJsonSpec tts (es.filter fun e => !entryIsMetaEntry e) := by
  intro es
  induction es with
  | nil => intro sep; simp [groupEntriesLoop]
  | cons e rest ih =>
    intro sep
    by_cases hm : entryIsMetaEntry e
    · rw [groupEntriesLoop, if_pos hm, ih sep]
      simp [List.filter_cons, hm]
    · rw [groupEntriesLoop, if_neg hm, ih ","]
      have hf : (e :: rest).filter (fun e => !entryIsMetaEntry e) =
          e :: rest.filter (fun e => !entryIsMetaEntry e) := by
        simp [List.filter_cons, hm]
      rw [hf]
      by_cases hr : (rest.filter fun e => !entryIsMetaEntry e) = []
      · rw [if_pos ((isEmptyEqNil _).mpr hr), if_neg (by simp), hr]
        rw [strAppendEmpty, entriesJsonSpec]
      · rw [if_neg (fun h => hr ((isEmptyEqNil _).mp h)), if_neg (by simp)]
        have hsp : entriesJsonSpec tts
            (e :: rest.filter fun e => !entryIsMetaEntry e) =
            entryToJson tts e ++
              ("," ++ entriesJsonSpec tts
                (rest.filter fun e => !entryIsMetaEntry e)) := by
          cases hcr : rest.filter (fun e => !entryIsMetaEntry e) with
          | nil => exact absurd hcr hr
          | cons y ys =>
            rw [entriesJsonSpec]
            simp
        rw [hsp, strAppendAssoc]

theorem groupEntriesLoop_filter (tts : Int → String) :
    ∀ (es : List Entry) (sep : String),
      groupEntriesLoop tts (es.filter fun e => !entryIsMetaEntry e) sep =
        groupEntriesLoop tts es sep := by
  intro es
  induction es with
  | nil => intro sep; rfl
  | cons e rest ih =>
    intro sep
    by_cases hm : entryIsMetaEntry e
    · rw [groupEntriesLoop, if_pos hm]
      rw [show (e :: rest).filter (fun e => !entryIsMetaEntry e) =
        rest.filter (fun e => !entryIsMetaEntry e) by simp [List.filter_cons, hm]]
      exact ih sep
    · rw [show (e :: rest).filter (fun e => !entryIsMetaEntry e) =
        e :: rest.filter (fun e => !entryIsMetaEntry e) by
          simp [List.filter_cons, hm]]
      rw [groupEntriesLoop, if_neg hm, groupEntriesLoop, if_neg hm, ih ","]

theorem anyNonMeta_filter (es : List Entry) :
    ((es.filter fun e => !entryIsMetaEntry e).any fun e => !entryIsMetaEntry e) =
      (es.any fun e => !entryIsMetaEntry e) := by
  induction es with
  | nil => rfl
  | cons e rest ih =>
    by_cases hm : entryIsMetaEntry e <;>
      simp [List.filter_cons, List.any_cons, hm, ih]

/-- Claim C4 (amended): an entry is classified as a meta-entry iff its
title is "Meta-Info", its url is "$", its username is "SYSTEM", its notes
are non-empty and at least one of its attachments is named "bin-stream"
(the attachment count is not constrained to one); the entries serialized
under "entries" by `Group::ToJson` are exactly the non-meta entries in
order; a group's JSON is unchanged when its meta entries are removed, their
presence showing up only through the `HasNonMetaEntries` view that guards
the "entries" key. -/
theorem meta_entry_suppression (tts : Int → String) :
    (∀ e : Entry, entryIsMetaEntry e = true ↔
      (e.dataOf.title.value = "Meta-Info" ∧ e.dataOf.url.value = "$" ∧
       e.dataOf.username.value = "SYSTEM" ∧ e.dataOf.notes.value ≠ "" ∧
       ∃ a ∈ e.dataOf.attachments, a.name = "bin-stream")) ∧
    (∀ es : List Entry, groupEntriesLoop tts es "" =
      entriesJsonSpec tts (es.filter fun e => !entryIsMetaEntry e)) ∧
    (∀ (d : GroupData) (gs : List Group) (es : List Entry),
      groupToJson tts (.mk d gs es) =
        groupToJson tts (.mk d gs (es.filter fun e => !entryIsMetaEntry e))) ∧
    (∀ g : Group, groupHasNonMetaEntries g =
      !(g.entriesOf.filter fun e => !entryIsMetaEntry e).isEmpty) := by
  refine ⟨?_, ?_, ?_, ?_⟩
  · intro e
    simp [entryIsMetaEntry, List.any_eq_true]
    tauto
  · intro es
    rw [groupEntriesLoop_spec]
    by_cases h : (es.filter fun e => !entryIsMetaEntry e) = []
    · rw [if_pos ((isEmptyEqNil _).mpr h), h]
      rfl
    · rw [if_neg (fun hh => h ((isEmptyEqNil _).mp hh))]
      apply String.ext
      simp
  · intro d gs es
    rw [groupToJson, groupToJson]
    have h1 : groupHasNonMetaEntries
        (Group.mk d gs (es.filter fun e => !entryIsMetaEntry e)) =
        groupHasNonMetaEntries (Group.mk d gs es) := by
      simp only [groupHasNonMetaEntries, Group.entriesOf]
      exact anyNonMeta_filter es
    rw [h1, groupEntriesLoop_filter]
  · intro g
    cases g with
    | mk d gs es =>
      simp only [groupHasNonMetaEntries, Group.entriesOf]
      induction es with
      | nil => rfl
      | cons e rest ih =>
        by_cases hm : entryIsMetaEntry e <;>
          simp [List.filter_cons, List.any_cons, hm, ih]

/-- Default-constructed scalar entry fields (construction zero-initializes
all fields; the UUID is irrelevant to the properties below). -/
def defaultEntryData : EntryData :=
  { uuid := [], icon := 0, custom_icon := none,
    title := ⟨"", false⟩, url := ⟨"", false⟩, override_url := "",
    username := ⟨"", false⟩, password := ⟨"", false⟩, notes := ⟨"", false⟩,
    tags := "", creation_time := 0, modification_time := 0,
    access_time := 0, expiry_time := 0, move_time := 0, expires := false,
    usage_count := 0, bg_color := "", fg_color := "",
    auto_type := ⟨false, 0, "", []⟩, attachments := [], custom_fields := [] }

/-- An entry matching the meta-entry sentinel fields but carrying two
attachments, one of which is named "bin-stream". -/
def exMetaTwoAttachments : Entry :=
  .mk { defaultEntryData with
          title := ⟨"Meta-Info", false⟩, url := ⟨"$", false⟩,
          username := ⟨"SYSTEM", false⟩, notes := ⟨"KPX_GROUP_TREE_STATE", false⟩,
          attachments := [⟨"bin-stream", ⟨⟨"x", false⟩, false⟩⟩,
                          ⟨"second", ⟨⟨"y", false⟩, false⟩⟩] }
      []

/-- Claim C4 counterexample: the claim requires "a single attachment named
bin-stream", but `Entry::IsMetaEntry` classifies this two-attachment entry
as a meta-entry. -/
theorem meta_entry_two_attachments_counterexample :
    entryIsMetaEntry exMetaTwoAttachments = true ∧
    exMetaTwoAttachments.dataOf.attachments.length = 2 := by
  exact ⟨by decide, rfl⟩

/-! ## C6: hashed-block stream (stream.cc lines 30-121)

On-wire block: 4-byte LE index, 32-byte SHA-256 of the payload (all zeros
for the empty terminator), 4-byte LE size, then the payload.  The writer
(`hashed_ostreambuf`) flushes whenever the buffer reaches `block_size_`
(a `uint32_t`); `sync` flushes the final partial block, then the empty
terminator.  The reader (`hashed_istreambuf`) checks the index against a
running counter, treats size 0 as end of stream (its hash must be all
zeros) and verifies SHA-256 of every other payload.  SHA-256 is the spec
black box, passed as `hash`.  Both index counters are `uint32_t`, hence
the `% 2 ^ 32` increments; the size field is written through a `uint32_t`
cast, which `le32` realizes. -/

/-- One on-wire block as emitted by `hashed_ostreambuf::FlushBlock`. -/
def encodeBlock (hash : List Nat → List Nat) (idx : Nat)
    (payload : List Nat) : List Nat :=
  le32 idx ++ (if payload.isEmpty then zeros32 else hash payload) ++
    le32 payload.length ++ payload

/-- The writer: full blocks of `bs` bytes while possible, then (`sync`)
the final partial block if non-empty, then the terminator.  A zero `bs`
never triggers the in-loop flush, leaving everything to `sync`. -/
def hashedWrite (hash : List Nat → List Nat) (bs : Nat) :
    Nat → List Nat → List Nat
  | idx, s =>
    if 0 < bs ∧ bs ≤ s.length then
      encodeBlock hash idx (s.take bs) ++
        hashedWrite hash bs ((idx + 1) % 2 ^ 32) (s.drop bs)
    else if s.isEmpty then
      encodeBlock hash idx []
    else
      encodeBlock hash idx s ++ encodeBlock hash ((idx + 1) % 2 ^ 32) []
termination_by _idx s => s.length
decreasing_by simp; omega

/-- The reader (`hashed_istreambuf::underflow` iterated to end of stream).
A stream shorter than one block header leaves the C++ `BlockHeader` read
unchecked and its fields indeterminate; that branch is modelled as an IO
error and is never reached by the theorems below (a writer-produced
stream, corrupted or not, always fails earlier or ends at the
terminator).  `src_.get()` past end of input yields the EOF byte 0xff. -/
def hashedRead (hash : List Nat → List Nat) :
    Nat → List Nat → Except KpErr (List Nat)
  | expected, input =>
    if _h40 : input.length < 40 then .error .io
    else
      let idx := de32 (input.take 4)
      let h := (input.drop 4).take 32
      let sz := de32 ((input.drop 36).take 4)
      let avail := input.drop 40
      if idx ≠ expected then .error .io
      else
        let payload := avail.take sz ++ List.replicate (sz - avail.length) 255
        if sz = 0 then
          if h = zeros32 then .ok [] else .error .io
        else if hash payload ≠ h then .error .io
        else
          match hashedRead hash ((expected + 1) % 2 ^ 32) (avail.drop sz) with
          | .error e => .error e
          | .ok rest => .ok (payload ++ rest)
termination_by _expected input => input.length
decreasing_by simp; omega

theorem le32_length (n : Nat) : (le32 n).length = 4 := rfl

theorem de32_le32 (n : Nat) (h : n < 2 ^ 32) : de32 (le32 n) = n := by
  simp [de32, le32, List.getD]
  omega

theorem setAppendLeft (l1 l2 : List Nat) (p : Nat) (b : Nat)
    (h : p < l1.length) : (l1 ++ l2).set p b = l1.set p b ++ l2 := by
  induction l1 generalizing p with
  | nil => simp at h
  | cons x xs ih =>
    cases p with
    | zero => simp
    | succ q =>
      simp only [List.cons_append, List.set_cons_succ, List.cons.injEq,
        true_and]
      exact ih q (by simpa using h)

theorem setAppendRight (l1 l2 : List Nat) (p : Nat) (b : Nat)
    (h : l1.length ≤ p) : (l1 ++ l2).set p b = l1 ++ l2.set (p - l1.length) b := by
  induction l1 generalizing p with
  | nil => simp
  | cons x xs ih =>
    cases p with
    | zero => simp at h
    | succ q =>
      simp only [List.cons_append, List.set_cons_succ, List.cons.injEq,
        true_and, List.length_cons, Nat.succ_sub_succ]
      exact ih q (by simpa using h)

theorem setNeSelf (l : List Nat) (q b : Nat) (hq : q < l.length)
    (hb : b ≠ l.getD q 0) : l.set q b ≠ l := by
  intro h
  apply hb
  have h1 : (l.set q b).getD q 0 = l.getD q 0 := by rw [h]
  rw [List.getD_eq_getElem _ _ (by simpa using hq)] at h1
  rw [List.getElem_set_self] at h1
  exact h1

theorem parseBlockG (w4 h32 s4 pay rest : List Nat) (hw : w4.length = 4)
    (hh : h32.length = 32) (hs : s4.length = 4) :
    ((w4 ++ h32 ++ s4 ++ pay) ++ rest).take 4 = w4 ∧
    (((w4 ++ h32 ++ s4 ++ pay) ++ rest).drop 4).take 32 = h32 ∧
    (((w4 ++ h32 ++ s4 ++ pay) ++ rest).drop 36).take 4 = s4 ∧
    ((w4 ++ h32 ++ s4 ++ pay) ++ rest).drop 40 = pay ++ rest ∧
    ((w4 ++ h32 ++ s4 ++ pay) ++ rest).length =
      40 + pay.length + rest.length := by
  have hassoc : (w4 ++ h32 ++ s4 ++ pay) ++ rest =
      w4 ++ (h32 ++ (s4 ++ (pay ++ rest))) := by
    simp [List.append_assoc]
  rw [hassoc]
  have hd4 : (w4 ++ (h32 ++ (s4 ++ (pay ++ rest)))).drop 4 =
      h32 ++ (s4 ++ (pay ++ rest)) := List.drop_left' hw
  have hd36 : (w4 ++ (h32 ++ (s4 ++ (pay ++ rest)))).drop 36 =
      s4 ++ (pay ++ rest) := by
    have h1 : (36 : Nat) = 4 + 32 := rfl
    rw [h1, ← List.drop_drop, hd4]
    exact List.drop_left' hh
  have hd40 : (w4 ++ (h32 ++ (s4 ++ (pay ++ rest)))).drop 40 =
      pay ++ rest := by
    have h1 : (40 : Nat) = 36 + 4 := rfl
    rw [h1, ← List.drop_drop, hd36]
    exact List.drop_left' hs
  refine ⟨List.take_left' hw, ?_, ?_, hd40, ?_⟩
  · rw [hd4]
    exact List.take_left' hh
  · rw [hd36]
    exact List.take_left' hs
  · simp [hw, hh, hs]
    omega

theorem parseBlock (a c : Nat) (h32 pay rest : List Nat)
    (hh : h32.length = 32) :
    ((le32 a ++ h32 ++ le32 c ++ pay) ++ rest).take 4 = le32 a ∧
    (((le32 a ++ h32 ++ le32 c ++ pay) ++ rest).drop 4).take 32 = h32 ∧
    (((le32 a ++ h32 ++ le32 c ++ pay) ++ rest).drop 36).take 4 = le32 c ∧
    ((le32 a ++ h32 ++ le32 c ++ pay) ++ rest).drop 40 = pay ++ rest ∧
    ((le32 a ++ h32 ++ le32 c ++ pay) ++ rest).length =
      40 + pay.length + rest.length :=
  parseBlockG (le32 a) h32 (le32 c) pay rest (le32_length a) hh (le32_length c)

theorem hashedRead_term (hash : List Nat → List Nat) (idx : Nat)
    (hidx : idx < 2 ^ 32) (rest : List Nat) :
    hashedRead hash idx (encodeBlock hash idx [] ++ rest) = .ok [] := by
  obtain ⟨ht4, ht32, hts, htd, htl⟩ :=
    parseBlock idx 0 zeros32 [] rest (by simp [zeros32])
  have he : encodeBlock hash idx [] ++ rest =
      (le32 idx ++ zeros32 ++ le32 0 ++ []) ++ rest := by
    simp [encodeBlock]
  rw [he, hashedRead]
  rw [dif_neg (by rw [htl]; omega)]
  simp only [ht4, ht32, hts, htd, de32_le32 idx hidx,
    de32_le32 0 (by norm_num : (0 : Nat) < 2 ^ 32)]
  simp

theorem hashedRead_blockStep (hash : List Nat → List Nat)
    (hLen : ∀ p, (hash p).length = 32) (idx : Nat) (hidx : idx < 2 ^ 32)
    (c rest : List Nat) (hc : c ≠ []) (hclen : c.length < 2 ^ 32) :
    hashedRead hash idx (encodeBlock hash idx c ++ rest) =
      match hashedRead hash ((idx + 1) % 2 ^ 32) rest with
      | .error e => .error e
      | .ok r => .ok (c ++ r) := by
  obtain ⟨ht4, ht32, hts, htd, htl⟩ :=
    parseBlock idx c.length (hash c) c rest (hLen c)
  have he : encodeBlock hash idx c ++ rest =
      (le32 idx ++ hash c ++ le32 c.length ++ c) ++ rest := by
    simp [encodeBlock, hc]
  have hc0 : c.length ≠ 0 := by
    intro h
    exact hc (List.length_eq_zero.mp h)
  have htkc : (c ++ rest).take c.length = c := List.take_left c rest
  have hdrc : (c ++ rest).drop c.length = rest := List.drop_left c rest
  have hrep : c.length - (c ++ rest).length = 0 := by simp
  rw [he, hashedRead]
  rw [dif_neg (by rw [htl]; omega)]
  simp only [ht4, ht32, hts, htd, de32_le32 idx hidx,
    de32_le32 c.length hclen, htkc, hdrc, hrep]
  simp [hc0]

theorem hashedWrite_nil (hash : List Nat → List Nat) (bs idx : Nat)
    (hbs0 : 0 < bs) : hashedWrite hash bs idx [] = encodeBlock hash idx [] := by
  rw [hashedWrite]
  rw [if_neg (by simp; omega), if_pos (by simp)]

theorem hashedRoundtripAux (hash : List Nat → List Nat)
    (hLen : ∀ p, (hash p).length = 32) (bs : Nat) (hbs0 : 0 < bs)
    (hbs32 : bs < 2 ^ 32) :
    ∀ n s idx, s.length ≤ n → idx < 2 ^ 32 →
      hashedRead hash idx (hashedWrite hash bs idx s) = .ok s := by
  intro n
  induction n with
  | zero =>
    intro s idx hs hidx
    have hsnil : s = [] := List.length_eq_zero.mp (by omega)
    subst hsnil
    rw [hashedWrite_nil hash bs idx hbs0]
    simpa using hashedRead_term hash idx hidx []
  | succ n ih =>
    intro s idx hs hidx
    by_cases hnil : s = []
    · subst hnil
      rw [hashedWrite_nil hash bs idx hbs0]
      simpa using hashedRead_term hash idx hidx []
    · by_cases hfull : bs ≤ s.length
      · rw [hashedWrite, if_pos ⟨hbs0, hfull⟩]
        have hcne : s.take bs ≠ [] := by
          intro h
          have h2 : (s.take bs).length = 0 := by rw [h]; rfl
          rw [List.length_take] at h2
          omega
        have hclen : (s.take bs).length < 2 ^ 32 := by
          rw [List.length_take]
          omega
        rw [hashedRead_blockStep hash hLen idx hidx _ _ hcne hclen]
        rw [ih (s.drop bs) ((idx + 1) % 2 ^ 32) (by simp; omega)
          (Nat.mod_lt _ (by norm_num))]
        simp [List.take_append_drop]
      · rw [hashedWrite, if_neg (by omega), if_neg (by simp [hnil])]
        have hslen : s.length < 2 ^ 32 := by omega
        rw [hashedRead_blockStep hash hLen idx hidx s _ hnil hslen]
        rw [show hashedRead hash ((idx + 1) % 2 ^ 32)
            (encodeBlock hash ((idx + 1) % 2 ^ 32) []) = .ok [] by
          simpa using hashedRead_term hash ((idx + 1) % 2 ^ 32)
            (Nat.mod_lt _ (by norm_num)) []]
        simp

theorem de32_set_ne (l : List Nat) (q b : Nat) (hl : l.length = 4)
    (hq : q < 4) (hb : b ≠ l.getD q 0) : de32 (l.set q b) ≠ de32 l := by
  match l, hl with
  | [a0, a1, a2, a3], _ =>
    interval_cases q <;> (simp [de32, List.getD] at hb ⊢; omega)

theorem encodeBlock_expand (hash : List Nat → List Nat) (idx : Nat)
    (c : List Nat) (hc : c ≠ []) :
    encodeBlock hash idx c = le32 idx ++ hash c ++ le32 c.length ++ c := by
  simp [encodeBlock, hc]

theorem readCorruptIdx (hash : List Nat → List Nat)
    (hLen : ∀ p, (hash p).length = 32) (idx : Nat) (hidx : idx < 2 ^ 32)
    (c rest : List Nat) (hc : c ≠ [])
    (q b : Nat) (hq : q < 4) (hb : b ≠ (le32 idx).getD q 0) :
    hashedRead hash idx ((encodeBlock hash idx c ++ rest).set q b) =
      .error .io := by
  have hH := hLen c
  have hset : (encodeBlock hash idx c ++ rest).set q b =
      ((le32 idx).set q b ++ hash c ++ le32 c.length ++ c) ++ rest := by
    rw [encodeBlock_expand hash idx c hc]
    rw [setAppendLeft _ _ _ _ (by simp [le32_length, hH]; omega)]
    rw [setAppendLeft _ _ _ _ (by simp [le32_length, hH]; omega)]
    rw [setAppendLeft _ _ _ _ (by simp [le32_length, hH]; omega)]
    rw [setAppendLeft _ _ _ _ (by simp [le32_length]; omega)]
  obtain ⟨ht4, ht32, hts, htd, htl⟩ :=
    parseBlockG ((le32 idx).set q b) (hash c) (le32 c.length) c rest
      (by simp [le32_length]) hH (le32_length _)
  have hne : de32 ((le32 idx).set q b) ≠ idx := by
    intro heq
    exact de32_set_ne (le32 idx) q b (le32_length idx) hq hb
      (heq.trans (de32_le32 idx hidx).symm)
  rw [hset, hashedRead, dif_neg (by rw [htl]; omega)]
  simp only [ht4]
  rw [if_pos hne]

theorem readCorruptHash (hash : List Nat → List Nat)
    (hLen : ∀ p, (hash p).length = 32) (idx : Nat) (hidx : idx < 2 ^ 32)
    (c rest : List Nat) (hc : c ≠ []) (hclen : c.length < 2 ^ 32)
    (q b : Nat) (hq4 : 4 ≤ q) (hq36 : q < 36)
    (hb : b ≠ (hash c).getD (q - 4) 0) :
    hashedRead hash idx ((encodeBlock hash idx c ++ rest).set q b) =
      .error .io := by
  have hH := hLen c
  have hset : (encodeBlock hash idx c ++ rest).set q b =
      (le32 idx ++ (hash c).set (q - 4) b ++ le32 c.length ++ c) ++ rest := by
    rw [encodeBlock_expand hash idx c hc]
    rw [setAppendLeft _ _ _ _ (by simp [le32_length, hH]; omega)]
    rw [setAppendLeft _ _ _ _ (by simp [le32_length, hH]; omega)]
    rw [setAppendLeft _ _ _ _ (by simp [le32_length, hH]; omega)]
    rw [setAppendRight _ _ _ _ (by simp [le32_length]; omega)]
    simp [le32_length]
  obtain ⟨ht4, ht32, hts, htd, htl⟩ :=
    parseBlockG (le32 idx) ((hash c).set (q - 4) b) (le32 c.length) c rest
      (le32_length idx) (by simp [hH]) (le32_length _)
  have hc0 : c.length ≠ 0 := by
    intro h
    exact hc (List.length_eq_zero.mp h)
  have htkc : (c ++ rest).take c.length = c := List.take_left c rest
  have hrep : c.length - (c ++ rest).length = 0 := by simp
  have hneq : hash c ≠ (hash c).set (q - 4) b :=
    fun h => setNeSelf (hash c) (q - 4) b (by omega) hb h.symm
  rw [hset, hashedRead, dif_neg (by rw [htl]; omega)]
  simp only [ht4, ht32, hts, htd, de32_le32 idx hidx,
    de32_le32 c.length hclen, htkc, hrep]
  simp [hc0, hneq]

theorem payloadLen (avail : List Nat) (sz : Nat) :
    (avail.take sz ++ List.replicate (sz - avail.length) (255 : Nat)).length
      = sz := by
  simp [List.length_take]
  omega

theorem readCorruptSize (hash : List Nat → List Nat)
    (hLen : ∀ p, (hash p).length = 32)
    (hInj : ∀ l1 l2, hash l1 = hash l2 → l1 = l2)
    (hZero : ∀ l, l ≠ [] → hash l ≠ zeros32)
    (idx : Nat) (hidx : idx < 2 ^ 32)
    (c rest : List Nat) (hc : c ≠ []) (hclen : c.length < 2 ^ 32)
    (q b : Nat) (hq36 : 36 ≤ q) (hq40 : q < 40)
    (hb : b ≠ (le32 c.length).getD (q - 36) 0) :
    hashedRead hash idx ((encodeBlock hash idx c ++ rest).set q b) =
      .error .io := by
  have hH := hLen c
  have hset : (encodeBlock hash idx c ++ rest).set q b =
      (le32 idx ++ hash c ++ (le32 c.length).set (q - 36) b ++ c) ++ rest := by
    rw [encodeBlock_expand hash idx c hc]
    rw [setAppendLeft _ _ _ _ (by simp [le32_length, hH]; omega)]
    rw [setAppendLeft _ _ _ _ (by simp [le32_length, hH]; omega)]
    rw [setAppendRight _ _ _ _ (by simp [le32_length, hH]; omega)]
    simp [le32_length, hH]
  obtain ⟨ht4, ht32, hts, htd, htl⟩ :=
    parseBlockG (le32 idx) (hash c) ((le32 c.length).set (q - 36) b) c rest
      (le32_length idx) hH (by simp [le32_length])
  have hszne : de32 ((le32 c.length).set (q - 36) b) ≠ c.length := by
    intro heq
    exact de32_set_ne (le32 c.length) (q - 36) b (le32_length _) (by omega) hb
      (heq.trans (de32_le32 c.length hclen).symm)
  rw [hset, hashedRead, dif_neg (by rw [htl]; omega)]
  simp only [ht4, ht32, hts, htd, de32_le32 idx hidx]
  by_cases hsz0 : de32 ((le32 c.length).set (q - 36) b) = 0
  · simp [hsz0, hZero c hc]
  · have hpc : (c ++ rest).take (de32 ((le32 c.length).set (q - 36) b)) ++
        List.replicate
          (de32 ((le32 c.length).set (q - 36) b) - (c ++ rest).length) 255 ≠
        c := by
      intro h
      apply hszne
      have h2 := congrArg List.length h
      rw [payloadLen] at h2
      exact h2
    have hne2 : hash ((c ++ rest).take
        (de32 ((le32 c.length).set (q - 36) b)) ++
        List.replicate
          (de32 ((le32 c.length).set (q - 36) b) - (c ++ rest).length) 255) ≠
        hash c := fun heq => hpc (hInj _ _ heq)
    simp [hsz0]
    intro heq
    exact absurd heq (by simpa using hne2)

theorem readCorruptPayload (hash : List Nat → List Nat)
    (hLen : ∀ p, (hash p).length = 32)
    (hInj : ∀ l1 l2, hash l1 = hash l2 → l1 = l2)
    (idx : Nat) (hidx : idx < 2 ^ 32)
    (c rest : List Nat) (hc : c ≠ []) (hclen : c.length < 2 ^ 32)
    (q b : Nat) (hq40 : 40 ≤ q) (hqe : q < 40 + c.length)
    (hb : b ≠ c.getD (q - 40) 0) :
    hashedRead hash idx ((encodeBlock hash idx c ++ rest).set q b) =
      .error .io := by
  have hH := hLen c
  have hset : (encodeBlock hash idx c ++ rest).set q b =
      (le32 idx ++ hash c ++ le32 c.length ++ c.set (q - 40) b) ++ rest := by
    rw [encodeBlock_expand hash idx c hc]
    rw [setAppendLeft _ _ _ _ (by simp [le32_length, hH]; omega)]
    rw [setAppendRight _ _ _ _ (by simp [le32_length, hH]; omega)]
    simp [le32_length, hH]
  obtain ⟨ht4, ht32, hts, htd, htl⟩ :=
    parseBlockG (le32 idx) (hash c) (le32 c.length) (c.set (q - 40) b) rest
      (le32_length idx) hH (le32_length _)
  have hc0 : c.length ≠ 0 := by
    intro h
    exact hc (List.length_eq_zero.mp h)
  have htkc : (c.set (q - 40) b ++ rest).take c.length = c.set (q - 40) b :=
    List.take_left' (by simp)
  have hrep : c.length - (c.set (q - 40) b ++ rest).length = 0 := by simp
  have hpc : c.set (q - 40) b ≠ c := setNeSelf c (q - 40) b (by omega) hb
  have hne2 : hash (c.set (q - 40) b) ≠ hash c := fun heq => hpc (hInj _ _ heq)
  rw [hset, hashedRead, dif_neg (by rw [htl]; omega)]
  simp only [ht4, ht32, hts, htd, de32_le32 idx hidx,
    de32_le32 c.length hclen, htkc, hrep]
  simp [hc0, hne2]

theorem encodeBlock_length (hash : List Nat → List Nat)
    (hLen : ∀ p, (hash p).length = 32) (idx : Nat) (c : List Nat)
    (hc : c ≠ []) : (encodeBlock hash idx c).length = 40 + c.length := by
  rw [encodeBlock_expand hash idx c hc]
  simp [le32_length, hLen c]
  omega

theorem readCorruptedBlock (hash : List Nat → List Nat)
    (hLen : ∀ p, (hash p).length = 32)
    (hInj : ∀ l1 l2, hash l1 = hash l2 → l1 = l2)
    (hZero : ∀ l, l ≠ [] → hash l ≠ zeros32)
    (idx : Nat) (hidx : idx < 2 ^ 32)
    (c rest : List Nat) (hc : c ≠ []) (hclen : c.length < 2 ^ 32)
    (q b : Nat) (hq : q < 40 + c.length)
    (hb : b ≠ (encodeBlock hash idx c).getD q 0) :
    hashedRead hash idx ((encodeBlock hash idx c ++ rest).set q b) =
      .error .io := by
  have hH := hLen c
  rw [encodeBlock_expand hash idx c hc] at hb
  rcases Nat.lt_or_ge q 4 with h4 | h4
  · refine readCorruptIdx hash hLen idx hidx c rest hc q b h4 ?_
    rwa [List.getD_append _ _ _ _ (by simp [le32_length, hH]; omega),
      List.getD_append _ _ _ _ (by simp [le32_length, hH]; omega),
      List.getD_append _ _ _ _ (by simp [le32_length]; omega)] at hb
  rcases Nat.lt_or_ge q 36 with h36 | h36
  · refine readCorruptHash hash hLen idx hidx c rest hc hclen q b h4 h36 ?_
    rw [List.getD_append _ _ _ _ (by simp [le32_length, hH]; omega),
      List.getD_append _ _ _ _ (by simp [le32_length, hH]; omega),
      List.getD_append_right _ _ _ _ (by simp [le32_length]; omega)] at hb
    simpa [le32_length] using hb
  rcases Nat.lt_or_ge q 40 with h40 | h40
  · refine readCorruptSize hash hLen hInj hZero idx hidx c rest hc hclen
      q b h36 h40 ?_
    rw [List.getD_append _ _ _ _ (by simp [le32_length, hH]; omega),
      List.getD_append_right _ _ _ _ (by simp [le32_length, hH]; omega)] at hb
    simpa [le32_length, hH] using hb
  · refine readCorruptPayload hash hLen hInj idx hidx c rest hc hclen
      q b h40 hq ?_
    rw [List.getD_append_right _ _ _ _
      (by simp [le32_length, hH]; omega)] at hb
    simpa [le32_length, hH] using hb

theorem hashedCorruptAux (hash : List Nat → List Nat)
    (hLen : ∀ p, (hash p).length = 32)
    (hInj : ∀ l1 l2, hash l1 = hash l2 → l1 = l2)
    (hZero : ∀ l, l ≠ [] → hash l ≠ zeros32)
    (bs : Nat) (hbs0 : 0 < bs) (hbs32 : bs < 2 ^ 32) :
    ∀ n s idx q b, s.length ≤ n → idx < 2 ^ 32 →
      q + 40 < (hashedWrite hash bs idx s).length →
      b ≠ (hashedWrite hash bs idx s).getD q 0 →
      hashedRead hash idx ((hashedWrite hash bs idx s).set q b) =
        .error .io := by
  intro n
  induction n with
  | zero =>
    intro s idx q b hs hidx hq hb
    have hsnil : s = [] := List.length_eq_zero.mp (by omega)
    subst hsnil
    rw [hashedWrite_nil hash bs idx hbs0] at hq
    have h40 : (encodeBlock hash idx []).length = 40 := by
      simp [encodeBlock, le32, zeros32]
    omega
  | succ n ih =>
    intro s idx q b hs hidx hq hb
    by_cases hnil : s = []
    · subst hnil
      rw [hashedWrite_nil hash bs idx hbs0] at hq
      have h40 : (encodeBlock hash idx []).length = 40 := by
        simp [encodeBlock, le32, zeros32]
      omega
    · by_cases hfull : bs ≤ s.length
      · have hcne : s.take bs ≠ [] := by
          intro h
          have h2 : (s.take bs).length = 0 := by rw [h]; rfl
          rw [List.length_take] at h2
          omega
        have hctk : (s.take bs).length = bs := by
          rw [List.length_take]
          omega
        have hclen : (s.take bs).length < 2 ^ 32 := by omega
        have hel : (encodeBlock hash idx (s.take bs)).length = 40 + bs := by
          rw [encodeBlock_length hash hLen idx _ hcne, hctk]
        rw [hashedWrite, if_pos ⟨hbs0, hfull⟩] at hq hb ⊢
        rw [List.length_append, hel] at hq
        by_cases hqin : q < 40 + bs
        · have hb2 : b ≠ (encodeBlock hash idx (s.take bs)).getD q 0 := by
            rwa [List.getD_append _ _ _ _ (by omega)] at hb
          exact readCorruptedBlock hash hLen hInj hZero idx hidx _ _ hcne
            hclen q b (by omega) hb2
        · push_neg at hqin
          rw [setAppendRight _ _ _ _ (by omega)]
          rw [hashedRead_blockStep hash hLen idx hidx _ _ hcne
            (by omega)]
          rw [hel]
          rw [ih (s.drop bs) ((idx + 1) % 2 ^ 32) (q - (40 + bs)) b
            (by rw [List.length_drop]; omega)
            (Nat.mod_lt _ (by norm_num))
            (by omega)
            (by rw [List.getD_append_right _ _ _ _ (by omega), hel] at hb
                exact hb)]
      · push_neg at hfull
        have hslen : s.length < 2 ^ 32 := by omega
        have hel : (encodeBlock hash idx s).length = 40 + s.length :=
          encodeBlock_length hash hLen idx s hnil
        have ht40 : (encodeBlock hash ((idx + 1) % 2 ^ 32) []).length = 40 := by
          simp [encodeBlock, le32, zeros32]
        rw [hashedWrite, if_neg (by omega), if_neg (by simp [hnil])] at hq hb ⊢
        rw [List.length_append, hel, ht40] at hq
        have hb2 : b ≠ (encodeBlock hash idx s).getD q 0 := by
          rwa [List.getD_append _ _ _ _ (by omega)] at hb
        exact readCorruptedBlock hash hLen hInj hZero idx hidx s _ hnil
          hslen q b (by omega) hb2

/-- Claim C6: hashed-block stream round-trip and corruption detection.
For every byte sequence `s` and every positive writer block size (a
`uint32_t`, hence `bs < 2 ^ 32`), reading the writer's output yields
exactly `s`, the reader signalling end of stream at the terminator; and
flipping any single byte of any non-terminal block (the terminator is the
final 40 bytes of the output, so the non-terminal region is every position
`q` with `q + 40` below the output length) makes the reader raise an IO
error.  `hash` is the SHA-256 black box; corruption detection additionally
assumes it is collision-free (`hInj`) and maps no non-empty payload to the
all-zero digest (`hZero`), which is how the spec treats it. -/
theorem hashedStream_roundtrip_and_corruption (hash : List Nat → List Nat)
    (hLen : ∀ p, (hash p).length = 32)
    (hInj : ∀ l1 l2, hash l1 = hash l2 → l1 = l2)
    (hZero : ∀ l, l ≠ [] → hash l ≠ zeros32)
    (bs : Nat) (hbs0 : 0 < bs) (hbs32 : bs < 2 ^ 32) (s : List Nat) :
    hashedRead hash 0 (hashedWrite hash bs 0 s) = .ok s ∧
    (∀ q b, q + 40 < (hashedWrite hash bs 0 s).length →
      b ≠ (hashedWrite hash bs 0 s).getD q 0 →
      hashedRead hash 0 ((hashedWrite hash bs 0 s).set q b) =
        .error .io) :=
  ⟨hashedRoundtripAux hash hLen bs hbs0 hbs32 s.length s 0 le_rfl
    (by norm_num),
   fun q b hq hb =>
    hashedCorruptAux hash hLen hInj hZero bs hbs0 hbs32 s.length s 0 q b
      le_rfl (by norm_num) hq hb⟩

/-- An injective stand-in digest for evaluating the hashed-block theorems:
the list is encoded into the first output byte position via iterated
`Nat.pair` (bytes in this embedding are `Nat`, so the output need not fit
in 0..255). -/
def pairListEncode : List Nat → Nat
  | [] => 0
  | a :: as => Nat.pair a (pairListEncode as) + 1

def injHash (l : List Nat) : List Nat :=
  pairListEncode l :: List.replicate 31 0

theorem pairListEncode_inj :
    ∀ l1 l2, pairListEncode l1 = pairListEncode l2 → l1 = l2 := by
  intro l1
  induction l1 with
  | nil =>
    intro l2 h
    cases l2 with
    | nil => rfl
    | cons b bs => simp [pairListEncode] at h
  | cons a as ih =>
    intro l2 h
    cases l2 with
    | nil => simp [pairListEncode] at h
    | cons b bs =>
      simp only [pairListEncode, Nat.add_right_cancel_iff] at h
      obtain ⟨h1, h2⟩ := Nat.pair_eq_pair.mp h
      rw [h1, ih bs h2]

theorem injHash_inj (l1 l2 : List Nat) (h : injHash l1 = injHash l2) :
    l1 = l2 := by
  simp only [injHash, List.cons.injEq] at h
  exact pairListEncode_inj l1 l2 h.1

theorem injHash_ne_zeros (l : List Nat) (hl : l ≠ []) :
    injHash l ≠ zeros32 := by
  intro h
  simp only [injHash, zeros32] at h
  have h0 : pairListEncode l = 0 := by
    have h2 : (32 : Nat) = 31 + 1 := rfl
    rw [h2, List.replicate_succ] at h
    exact (List.cons.injEq _ _ _ _ ▸ h).1
  cases l with
  | nil => exact hl rfl
  | cons a as => simp [pairListEncode] at h0

/-- Claim C6 witness: the round-trip and a one-byte corruption evaluated
with the injective stand-in digest, block size 2 and source [1, 2, 3]. -/
theorem hashedStream_roundtrip_and_corruption_witness :
    hashedRead injHash 0 (hashedWrite injHash 2 0 [1, 2, 3]) =
      .ok [1, 2, 3] := by
  have h := hashedStream_roundtrip_and_corruption injHash
    (fun p => by simp [injHash]) injHash_inj injHash_ne_zeros
    2 (by norm_num) (by norm_num) [1, 2, 3]
  exact h.1

/-! ## C10: value equality walks only the left operand's child lists -/

/-- Default-constructed scalar group fields. -/
def defaultGroupData : GroupData :=
  { uuid := [], icon := 0, custom_icon := none, name := "", notes := "",
    creation_time := 0, modification_time := 0, access_time := 0,
    expiry_time := 0, move_time := 0, flags := 0, expires := false,
    expanded := false, usage_count := 0, default_autotype_sequence := "",
    autotype := false, search := false, last_visible_entry := none }

def exEntryA : Entry := .mk { defaultEntryData with tags := "a" } []

def exEntryB : Entry := .mk { defaultEntryData with tags := "b" } []

def exChildA : Group := .mk { defaultGroupData with name := "childA" } [] []

def exChildB : Group := .mk { defaultGroupData with name := "childB" } [] []

/-- A group with one child group and one entry. -/
def exG1 : Group := .mk defaultGroupData [exChildA] [exEntryA]

/-- A group with the same scalar fields whose child lists strictly extend
those of `exG1`. -/
def exG2 : Group := .mk defaultGroupData [exChildA, exChildB] [exEntryA, exEntryB]

/-- Claim C10: `Group::operator==` compares the owned child-group and entry
lists through `indirect_equal`, which walks only the left operand's range
and never compares lengths, so a group whose lists are strict element-wise
prefixes of another group's longer lists compares equal to it even though
the two contain different numbers of children. -/
theorem groupEq_accepts_longer_right_lists :
    groupEq exG1 exG2 = true ∧
    exG1.dataOf = exG2.dataOf ∧
    exG2.groupsOf = exG1.groupsOf ++ [exChildB] ∧
    exG2.entriesOf = exG1.entriesOf ++ [exEntryB] ∧
    exG1.groupsOf.length ≠ exG2.groupsOf.length ∧
    exG1.entriesOf.length ≠ exG2.entriesOf.length := by
  refine ⟨?_, rfl, rfl, rfl, by decide, by decide⟩
  decide

end keepass
